import Mathlib

/-!
Verification of the LMS diffusion scheduler in
src/image_generation/stable_diffusion_1_5/cpp/src/stable_diffusion.hpp.

The C++ floating-point arithmetic is idealised as exact real arithmetic
(ℝ).  Tensors become functions ℕ → ℝ, vectors become List ℝ, and the
external UNet becomes an abstract predictor parameter.  The one genuine
division by zero in the source — the interpolation step of the run
schedule at `steps = 1`, which under IEEE arithmetic produces `-inf`,
then a NaN timestep, and then an undefined `int32_t` conversion with an
out-of-bounds table read — is modelled as an explicit fault (`Option`,
value `none`), not totalised away.  Divisions inside the sampling loop
remain Lean real division; every claim about them carries an explicit
nonzero-divisor hypothesis.
-/

set_option maxHeartbeats 1000000

open scoped Classical

noncomputable section

/-- Model of the `linspace` helper (stable_diffusion.hpp, lines 33-42):
`linspaceVal a h i` is the value written at index `i`, obtained by starting
at `a` and repeatedly adding the step `h`, exactly like the accumulating
loop in the source. -/
def linspaceVal (a h : ℝ) : ℕ → ℝ
  | 0 => a
  | n + 1 => linspaceVal a h n + h

/-- One state of the refinement loop of the adaptive trapezoidal
integrator (lines 52-65): `k` is the current refinement level, `rem` the
number of levels still allowed, `I0` the previous estimate and `h` the
current half-step.  Each level sums the midpoint samples
`f (a + (2j-1)h)` for `j = 1 .. 2^(k-1)` (written below with `j` running
from 0), forms `I1 = I0/2 + h*sum`, and returns early once `k > 1` and
`|I1 - I0| < tol`. -/
def trapAux (f : ℝ → ℝ) (a tol : ℝ) : ℕ → ℕ → ℝ → ℝ → ℝ
  | _, 0, I0, _ => I0
  | k, rem + 1, I0, h =>
    let s := ∑ j in Finset.range (2 ^ (k - 1)), f (a + (2 * (j : ℝ) + 1) * h)
    let I1 := (1 / 2) * I0 + h * s
    if 1 < k ∧ |I1 - I0| < tol then I1
    else trapAux f a tol (k + 1) rem I1 (h / 2)

/-- Model of `trapezoidal` (lines 45-69): the initial two-point estimate
`(f a + f b) * (b-a)/2` is refined by `trapAux` for at most
`max_refinements` levels. -/
def trapezoidal (f : ℝ → ℝ) (a b tol : ℝ) (max_refinements : ℕ) : ℝ :=
  trapAux f a tol 1 max_refinements ((f a + f b) * ((b - a) / 2)) ((b - a) / 2)

/-- Beta value at index `i` of the "linear" schedule branch (line 87):
`beta_start + (beta_end - beta_start) * i / (num_train_timesteps - 1)`. -/
def betaLinearFun (beta_start beta_end : ℝ) (N : ℕ) (i : ℕ) : ℝ :=
  beta_start + (beta_end - beta_start) * (i : ℝ) / ((N : ℝ) - 1)

/-- Beta value at index `i` of the "scaled_linear" schedule branch
(lines 89-95): the linspace from `sqrt beta_start` to `sqrt beta_end` is
squared entrywise. -/
def betaScaledFun (beta_start beta_end : ℝ) (N : ℕ) (i : ℕ) : ℝ :=
  let b := linspaceVal (Real.sqrt beta_start)
    ((Real.sqrt beta_end - Real.sqrt beta_start) / ((N : ℝ) - 1)) i
  b * b

/-- The beta vector actually accumulated by `LMSDiscreteScheduler`
(lines 82-98).  When `trained_betas` is non-empty the source executes
`auto betas = trained_betas;`, declaring a fresh shadowing local, so the
outer `betas` vector stays empty: that branch yields `[]` here.  An
unknown schedule name only prints a warning and also leaves `betas`
empty. -/
def schedulerBetas (N : ℕ) (beta_start beta_end : ℝ) (beta_schedule : String)
    (trained_betas : List ℝ) : List ℝ :=
  if !trained_betas.isEmpty then []
  else if beta_schedule = "linear" then (List.range N).map (betaLinearFun beta_start beta_end N)
  else if beta_schedule = "scaled_linear" then
    (List.range N).map (betaScaledFun beta_start beta_end N)
  else []

/-- Cumulative product of `alphas = 1 - betas` over the first `j+1`
entries, as accumulated at lines 99-105 (`betas.getD k 0` reads entry `k`
of the beta vector). -/
def acpList (betas : List ℝ) (j : ℕ) : ℝ :=
  ∏ k in Finset.range (j + 1), (1 - betas.getD k 0)

/-- Same cumulative product for a beta sequence given as a function; used
to state properties of the generated tables. -/
def acpFun (f : ℕ → ℝ) (j : ℕ) : ℝ := ∏ k in Finset.range (j + 1), (1 - f k)

/-- Entry `j` of the log-sigma table determined by a beta sequence `f`:
`log (sqrt ((1 - acp j) / acp j))` (lines 104-107). -/
def logSigmaFun (f : ℕ → ℝ) (j : ℕ) : ℝ :=
  Real.log (Real.sqrt ((1 - acpFun f j) / acpFun f j))

/-- Model of `LMSDiscreteScheduler` (lines 71-110): builds the beta
vector, then for each index `j` the cumulative alpha product, the sigma
`sqrt ((1-acp)/acp)` and finally its logarithm.  The `prediction_type`
argument is copied but never used, exactly as in the source. -/
def LMSDiscreteScheduler (num_train_timesteps : ℕ) (beta_start beta_end : ℝ)
    (beta_schedule prediction_type : String) (trained_betas : List ℝ) : List ℝ :=
  let betas := schedulerBetas num_train_timesteps beta_start beta_end beta_schedule trained_betas
  (List.range betas.length).map (fun j =>
    Real.log (Real.sqrt ((1 - acpList betas j) / acpList betas j)))

/-- The table built by the defaulted call `LMSDiscreteScheduler()`
(line 269): 1000 training timesteps, `beta_start = 0.00085`,
`beta_end = 0.012`, schedule "scaled_linear". -/
def default_log_sigmas : List ℝ :=
  LMSDiscreteScheduler 1000 0.00085 0.012 "scaled_linear" "epsilon" []

/-- The default table read as a total function (out-of-range reads
default to 0; the source never performs them on the 1000-entry table). -/
def defaultLS : ℕ → ℝ := fun i => default_log_sigmas.getD i 0

/-- The cumulative indicator vector of `sigma_to_timestemp`
(lines 116-125): position `i` contributes 1 when
`log_sigma - log_sigmas[i] >= 0`, and the contributions are accumulated
left to right. -/
def distsCum (log_sigmas : ℕ → ℝ) (log_sigma : ℝ) : ℕ → ℝ
  | 0 => if 0 ≤ log_sigma - log_sigmas 0 then 1 else 0
  | i + 1 =>
    (if 0 ≤ log_sigma - log_sigmas (i + 1) then 1 else 0) + distsCum log_sigmas log_sigma i

/-- First index in `[0, n]` attaining the maximum of `g`, mirroring
`std::max_element` (line 128), which keeps the earliest maximal element:
a later index replaces the champion only when strictly greater. -/
def argmaxFirst (g : ℕ → ℝ) : ℕ → ℕ
  | 0 => 0
  | n + 1 => if g (argmaxFirst g n) < g (n + 1) then n + 1 else argmaxFirst g n

/-- Model of `sigma_to_timestemp` (lines 112-139).  The source clamps the
argmax of the cumulative indicator to `1000 - 2`, interpolates between
the two neighbouring table entries with weight
`w = clamp ((low - log_sigma) / (low - high), 0, 1)` and rounds
`(1-w)*low_idx + w*high_idx` to the nearest integer.  `std::llround`
rounds halves away from zero; the value rounded here is always
non-negative, where that agrees with Lean `round`. -/
def sigma_to_timestemp (log_sigmas : ℕ → ℝ) (sigma : ℝ) : ℤ :=
  let log_sigma := Real.log sigma
  let low_idx : ℕ := min (argmaxFirst (distsCum log_sigmas log_sigma) 999) (1000 - 2)
  let high_idx : ℕ := low_idx + 1
  let low := log_sigmas low_idx
  let high := log_sigmas high_idx
  let w := max 0 (min 1 ((low - log_sigma) / (low - high)))
  round ((1 - w) * (low_idx : ℝ) + w * (high_idx : ℝ))

/-- Model of `lms_derivative_function` (lines 141-151): the Lagrange
basis product over `k < order`, skipping the factor `k = curr_order`
(the `continue` in the source becomes a factor 1). -/
def lms_derivative_function (tau : ℝ) (order curr_order : ℕ) (sigma_vec : ℕ → ℝ)
    (t : ℕ) : ℝ :=
  ∏ k in Finset.range order,
    if curr_order = k then 1
    else (tau - sigma_vec (t - k)) / (sigma_vec (t - curr_order) - sigma_vec (t - k))

/-- Tolerance `1e-4` passed to `trapezoidal` at line 337. -/
def lms_tol : ℝ := 1e-4

/-- The list of LMS coefficients computed at step `i` for a given order
(lines 332-339): one adaptive trapezoidal integral of the Lagrange basis
over `[sigma i, sigma (i+1)]` per `curr_order < order`. -/
def lmsCoeffs (sigma_vec : ℕ → ℝ) (order i : ℕ) : List ℝ :=
  (List.range order).map (fun curr_order =>
    trapezoidal (fun tau => lms_derivative_function tau order curr_order sigma_vec i)
      (sigma_vec i) (sigma_vec (i + 1)) lms_tol 100)

/-- The fixed classifier-free guidance scale (line 253). -/
def guidance_scale : ℝ := 7.5

/-- Model of the guidance combination in `unet_infer_function`
(lines 253-259): `uncond + scale * (cond - uncond)` elementwise. -/
def guidedNoise (noise_pred_uncond noise_pred_text : ℕ → ℝ) : ℕ → ℝ :=
  fun j => noise_pred_uncond j + guidance_scale * (noise_pred_text j - noise_pred_uncond j)

/-- The derivative pushed into the history at each step (lines 316-321):
`pred_latent = latent0 - sigma_i * noise`, then
`(latent0 - pred_latent) / sigma_i`.  Note the source reads the original
`latent_vector_1d`, not the evolving latent. -/
def lmsDeriv (latent0 : ℕ → ℝ) (sigma_i : ℝ) (noise_pred : ℕ → ℝ) : ℕ → ℝ := fun j =>
  let pred_latent := latent0 j - sigma_i * noise_pred j
  (latent0 j - pred_latent) / sigma_i

/-- The mutable state of the sampling loop: the evolving latent
`latent_vector_1d_new` and the bounded `derivative_list`. -/
structure DiffState where
  latent : ℕ → ℝ
  derivative_list : List (ℕ → ℝ)

/-- One iteration of the sampling loop of `diffusion_function`
(lines 300-374).  `predictor` abstracts the external UNet call: given the
timestep and the scaled model input it returns the unconditional and
conditional noise predictions, which are combined with the fixed
guidance scale.  The derivative is pushed, the history is trimmed to 4
entries by dropping the oldest, the `min (i+1) 4` LMS coefficients are
integrated, and the latent is advanced by the coefficient-weighted sum
of the reversed history. -/
def lmsStep (predictor : ℤ → (ℕ → ℝ) → (ℕ → ℝ) × (ℕ → ℝ)) (log_sigmas sigma : ℕ → ℝ)
    (latent0 : ℕ → ℝ) (i : ℕ) (st : DiffState) : DiffState :=
  let scale := 1 / Real.sqrt (sigma i * sigma i + 1)
  let model_input : ℕ → ℝ := fun j => st.latent j * scale
  let timestemp := sigma_to_timestemp log_sigmas (sigma i)
  let preds := predictor timestemp model_input
  let noise_pred := guidedNoise preds.1 preds.2
  let deriv := lmsDeriv latent0 (sigma i) noise_pred
  let pushed := st.derivative_list ++ [deriv]
  let kept := if 4 < pushed.length then pushed.tail else pushed
  let order := min (i + 1) 4
  let coeffs := lmsCoeffs sigma order i
  let rev := kept.reverse
  ⟨fun j => st.latent j + ∑ m in Finset.range order, coeffs.getD m 0 * (rev.getD m (fun _ => 0)) j,
   kept⟩

/-- State of the sampling loop after `n` iterations, starting from the
initial latent scaled by `sigma 0` (lines 286-294) and an empty
derivative history. -/
def runUpTo (predictor : ℤ → (ℕ → ℝ) → (ℕ → ℝ) × (ℕ → ℝ)) (log_sigmas sigma : ℕ → ℝ)
    (latent0 : ℕ → ℝ) : ℕ → DiffState
  | 0 => ⟨fun j => latent0 j * sigma 0, []⟩
  | n + 1 =>
    lmsStep predictor log_sigmas sigma latent0 n
      (runUpTo predictor log_sigmas sigma latent0 n)

/-- The value of the interpolation step `-999 / (steps - 1)` (line 273)
when the denominator is nonzero. -/
def deltaVal (steps : ℕ) : ℝ := -999 / ((steps : ℝ) - 1)

/-- Model of `float delta = -999.0f / (steps - 1);` (line 273).  The
`size_t` denominator converts to the float 0 exactly when `steps = 1`;
IEEE division then yields `-inf`, line 277 forms `0 * (-inf) = NaN`, and
lines 278-281 convert that NaN to `int32_t` (undefined behaviour) and
read the table out of bounds.  No finite interpolation step — and hence
no schedule value — exists on that path, so it is modelled as `none`.
(For `steps = 0` the `size_t` subtraction wraps and `delta` becomes a
tiny negative float, but the schedule loop body never runs and the value
is never read; no claim concerns `steps = 0`.) -/
def deltaRun (steps : ℕ) : Option ℝ :=
  if steps = 1 then none else some (deltaVal steps)

/-- The fractional timestep visited at run index `i` for a finite
interpolation step `d`: `t = 999 + i * d` (line 277). -/
def tRun (d : ℝ) (i : ℕ) : ℝ := 999 + (i : ℝ) * d

/-- Floor/ceil interpolation of the log-sigma table at a fractional
timestep `t` (lines 278-281): `w = t - floor t`, value
`(1-w) * ls (floor t) + w * ls (ceil t)`. -/
def interpLS (ls : ℕ → ℝ) (t : ℝ) : ℝ :=
  (1 - (t - (⌊t⌋ : ℝ))) * ls ⌊t⌋.toNat + (t - (⌊t⌋ : ℝ)) * ls ⌈t⌉.toNat

/-- The schedule entries built from a finite interpolation step `d`
(lines 276-283): `steps` interpolated and exponentiated sigmas followed
by the appended terminal `0`. -/
def runScheduleList (ls : ℕ → ℝ) (steps : ℕ) (d : ℝ) : List ℝ :=
  ((List.range steps).map (fun i => Real.exp (interpLS ls (tRun d i)))) ++ [0]

/-- The run schedule built inside `diffusion_function` (lines 272-283):
defined whenever the interpolation step is finite; at `steps = 1` the
division by zero at line 273 leaves it undefined. -/
def runSchedule (ls : ℕ → ℝ) (steps : ℕ) : Option (List ℝ) :=
  (deltaRun steps).map (runScheduleList ls steps)

/-- Model of `diffusion_function` (lines 264-377): when the run schedule
exists, run the sampling loop for `steps` iterations against the default
log-sigma table and that schedule, returning the final latent; when the
schedule construction faults (`steps = 1`) no result exists. -/
def diffusion_function (predictor : ℤ → (ℕ → ℝ) → (ℕ → ℝ) × (ℕ → ℝ)) (steps : ℕ)
    (latent0 : ℕ → ℝ) : Option (ℕ → ℝ) :=
  (runSchedule defaultLS steps).map (fun sched =>
    (runUpTo predictor defaultLS (fun i => sched.getD i 0) latent0 steps).latent)

/-! ## Theorems -/

/-- Claim C1: the code discards a supplied non-empty `trained_betas`.
The inner declaration at line 84 shadows the outer beta vector, which
stays empty, so the returned table is empty instead of having the length
of `trained_betas` (here 1).  This contradicts the documented intent of
the `trained_betas` parameter; the claim describes the intended
behaviour, the code has the shadowing bug. -/
theorem trained_betas_silently_discarded :
    (LMSDiscreteScheduler 1000 0.00085 0.012 "scaled_linear" "epsilon"
      [(1 : ℝ) / 2]).length = 0 := by
  simp [LMSDiscreteScheduler, schedulerBetas]

/-- Claim C3: with an unknown `beta_schedule` (here "cosine") and empty
`trained_betas`, the code does not fail fast: it merely warns and
proceeds with the empty beta vector, returning an empty table computed
from it. -/
theorem unknown_schedule_returns_empty_table :
    (LMSDiscreteScheduler 1000 0.00085 0.012 "cosine" "epsilon" []).length = 0 := by
  simp [LMSDiscreteScheduler, schedulerBetas]

/-- Claim C9: in exact arithmetic the derivative pushed into the history
equals the guided noise prediction elementwise whenever `sigma_i ≠ 0`:
the latent term cancels algebraically, for any latent argument
(`lmsStep` passes the original unscaled latent). -/
theorem lms_derivative_equals_guided_noise (latent0 : ℕ → ℝ) (s : ℝ)
    (noise_pred : ℕ → ℝ) (hs : s ≠ 0) (j : ℕ) :
    lmsDeriv latent0 s noise_pred j = noise_pred j := by
  simp only [lmsDeriv, sub_sub_cancel]
  exact mul_div_cancel_left₀ _ hs

/-- Witness for C9 at concrete inputs. -/
theorem lms_derivative_equals_guided_noise_witness :
    (1 : ℝ) ≠ 0 ∧ lmsDeriv (fun _ => 5) 1 (fun _ => 2) 0 = (fun _ => (2 : ℝ)) 0 :=
  ⟨one_ne_zero, lms_derivative_equals_guided_noise (fun _ => 5) 1 (fun _ => 2) one_ne_zero 0⟩

/-- Length of the derivative history after one `lmsStep`: the pushed
list is trimmed by dropping the oldest entry once it would exceed 4. -/
theorem lmsStep_history_length (predictor : ℤ → (ℕ → ℝ) → (ℕ → ℝ) × (ℕ → ℝ))
    (log_sigmas sigma latent0 : ℕ → ℝ) (i : ℕ) (st : DiffState) :
    (lmsStep predictor log_sigmas sigma latent0 i st).derivative_list.length =
      if 4 < st.derivative_list.length + 1 then st.derivative_list.length
      else st.derivative_list.length + 1 := by
  simp only [lmsStep, List.length_append, List.length_cons, List.length_nil, zero_add]
  split_ifs with h
  · simp [List.length_tail]
  · simp

/-- Claim C8: at every point of every sampling run the derivative
history after `n` completed steps has length exactly `min n 4` (so after
step `i` it is `min (i+1) 4`, never exceeding 4), and the list of LMS
coefficients computed at step `i` has length `min (i+1) 4`. -/
theorem derivative_history_bounded (predictor : ℤ → (ℕ → ℝ) → (ℕ → ℝ) × (ℕ → ℝ))
    (log_sigmas sigma latent0 : ℕ → ℝ) (n : ℕ) :
    (runUpTo predictor log_sigmas sigma latent0 n).derivative_list.length = min n 4 ∧
    ∀ i, (lmsCoeffs sigma (min (i + 1) 4) i).length = min (i + 1) 4 := by
  constructor
  · induction n with
    | zero => simp [runUpTo]
    | succ n ih =>
      rw [runUpTo, lmsStep_history_length, ih]
      split_ifs with h <;> omega
  · intro i
    simp [lmsCoeffs]

/-- Claim C4 (code bug evidence): with `steps = 1`, the all-zero initial
latent (modelling the [1,4,8,8] tensor) and the all-zero noise
predictor, the sampling run produces no final latent at all: the
schedule construction at line 273 divides by zero before the loop can
run, so the code cannot return the all-zero latent the claim requires. -/
theorem diffusion_step_one_division_by_zero :
    diffusion_function (fun _ _ => (fun _ => 0, fun _ => 0)) 1 (fun _ => 0) = none := by
  simp [diffusion_function, runSchedule, deltaRun]

/-- With order 1 the Lagrange basis product has a single factor, which
the `curr_order = k` skip turns into the constant 1. -/
theorem lms_derivative_function_order_one (tau : ℝ) (sigma_vec : ℕ → ℝ) (i : ℕ) :
    lms_derivative_function tau 1 0 sigma_vec i = 1 := by
  simp [lms_derivative_function]

/-- The first refinement level (`k = 1`) never returns early: it samples
the single midpoint and recurses at level 2 with the halved step. -/
theorem trapAux_level_one (f : ℝ → ℝ) (a tol I0 h : ℝ) (rem : ℕ) :
    trapAux f a tol 1 (rem + 1) I0 h =
      trapAux f a tol 2 rem ((1 / 2) * I0 + h * f (a + h)) (h / 2) := by
  rw [trapAux]
  norm_num

/-- From level 2 on, a level entered with previous estimate `b - a` and
step `(b-a) / 2^k` on the constant-1 integrand reproduces `b - a`
exactly and therefore returns it at once. -/
theorem trapAux_const_one_ret (a b tol : ℝ) (htol : 0 < tol) (k rem : ℕ) (hk : 2 ≤ k) :
    trapAux (fun _ => (1 : ℝ)) a tol k (rem + 1) (b - a) ((b - a) / 2 ^ k) = b - a := by
  have hpow : ((2 : ℝ) ^ k) = 2 ^ (k - 1) * 2 := by
    rw [mul_comm, ← pow_succ']
    congr 1
    omega
  have hne : ((2 : ℝ) ^ (k - 1)) ≠ 0 := by positivity
  have key : (b - a) / 2 ^ k * (((2 : ℕ) ^ (k - 1) : ℕ) : ℝ) = (b - a) / 2 := by
    push_cast
    rw [hpow]
    field_simp
    ring
  have hval : (1 / 2) * (b - a) +
      (b - a) / 2 ^ k * ∑ _j in Finset.range (2 ^ (k - 1)), (1 : ℝ) = b - a := by
    rw [Finset.sum_const, Finset.card_range, nsmul_eq_mul, mul_one, key]
    ring
  simp only [trapAux]
  rw [hval, if_pos ⟨by omega, by simpa using htol⟩]

/-- Claim C7: with order 1 the single LMS coefficient at step `i` is the
exact integral `sigma (i+1) - sigma i`: the integrand degenerates to the
constant 1 and the adaptive trapezoid rule is exact for constants,
converging at the second refinement level. -/
theorem lms_order_one_coefficient (sigma : ℕ → ℝ) (i : ℕ)
    (hlt : sigma (i + 1) < sigma i) (hnn : 0 ≤ sigma (i + 1)) :
    lmsCoeffs sigma 1 i = [sigma (i + 1) - sigma i] := by
  have hf : (fun tau => lms_derivative_function tau 1 0 sigma i) = fun _ => (1 : ℝ) :=
    funext fun tau => lms_derivative_function_order_one tau sigma i
  have htol : (0 : ℝ) < lms_tol := by norm_num [lms_tol]
  simp only [lmsCoeffs, show List.range 1 = [0] from rfl, List.map_cons, List.map_nil, hf]
  congr 1
  simp only [trapezoidal]
  rw [show (100 : ℕ) = 99 + 1 from rfl, trapAux_level_one,
    show (99 : ℕ) = 98 + 1 from rfl]
  convert trapAux_const_one_ret (sigma i) (sigma (i + 1)) lms_tol htol 2 98 le_rfl using 2 <;>
    ring

/-- Witness for C7 at a concrete schedule (`sigma 0 = 2`, later sigmas
1), step 0. -/
theorem lms_order_one_coefficient_witness :
    (fun n : ℕ => if n = 0 then (2 : ℝ) else 1) 1 < (fun n : ℕ => if n = 0 then (2 : ℝ) else 1) 0 ∧
    (0 : ℝ) ≤ (fun n : ℕ => if n = 0 then (2 : ℝ) else 1) 1 ∧
    lmsCoeffs (fun n : ℕ => if n = 0 then (2 : ℝ) else 1) 1 0 =
      [(fun n : ℕ => if n = 0 then (2 : ℝ) else 1) 1 -
        (fun n : ℕ => if n = 0 then (2 : ℝ) else 1) 0] :=
  ⟨by norm_num, by norm_num,
    lms_order_one_coefficient (fun n : ℕ => if n = 0 then (2 : ℝ) else 1) 0
      (by norm_num) (by norm_num)⟩

/-- The cumulative indicator only depends on the table entries up to its
index. -/
theorem distsCum_congr (ls ls' : ℕ → ℝ) (t : ℝ) (i : ℕ)
    (h : ∀ j, j ≤ i → ls j = ls' j) : distsCum ls t i = distsCum ls' t i := by
  induction i with
  | zero => rw [distsCum, distsCum, h 0 le_rfl]
  | succ i ih =>
    rw [distsCum, distsCum, h (i + 1) le_rfl,
      ih fun j hj => h j (le_trans hj (Nat.le_succ i))]

/-- The first-argmax index never exceeds the scanned range. -/
theorem argmaxFirst_le (g : ℕ → ℝ) (n : ℕ) : argmaxFirst g n ≤ n := by
  induction n with
  | zero => exact le_rfl
  | succ n ih => rw [argmaxFirst]; split_ifs <;> omega

/-- The first-argmax index only depends on the values in the scanned
range. -/
theorem argmaxFirst_congr (g g' : ℕ → ℝ) (n : ℕ) (h : ∀ j, j ≤ n → g j = g' j) :
    argmaxFirst g n = argmaxFirst g' n := by
  induction n with
  | zero => rfl
  | succ n ih =>
    have hle : ∀ j, j ≤ n → g j = g' j := fun j hj => h j (le_trans hj (Nat.le_succ n))
    have ham : argmaxFirst g n = argmaxFirst g' n := ih hle
    rw [argmaxFirst, argmaxFirst, ham, h (n + 1) le_rfl, hle _ (argmaxFirst_le g' n)]

/-- The rounded convex combination of a clamped-to-998 low index and its
successor stays inside `[0, 999]`, whatever the raw interpolation weight
was. -/
theorem round_conv_bounds (L : ℕ) (r : ℝ) (hL : L ≤ 998) :
    0 ≤ round ((1 - max 0 (min 1 r)) * (L : ℝ) + max 0 (min 1 r) * ((L + 1 : ℕ) : ℝ)) ∧
    round ((1 - max 0 (min 1 r)) * (L : ℝ) + max 0 (min 1 r) * ((L + 1 : ℕ) : ℝ)) ≤ 999 := by
  set w := max 0 (min 1 r) with hw
  have hw0 : 0 ≤ w := le_max_left _ _
  have hw1 : w ≤ 1 := max_le (by norm_num) (min_le_left _ _)
  have hv : (1 - w) * (L : ℝ) + w * ((L + 1 : ℕ) : ℝ) = (L : ℝ) + w := by push_cast; ring
  have hLr : (L : ℝ) ≤ 998 := by exact_mod_cast hL
  rw [hv, round_eq]
  constructor
  · rw [Int.le_floor]
    push_cast
    have h0 : (0 : ℝ) ≤ (L : ℝ) + w := add_nonneg (Nat.cast_nonneg L) hw0
    linarith
  · have hlt : ⌊(L : ℝ) + w + 1 / 2⌋ < 1000 := Int.floor_lt.mpr (by push_cast; linarith)
    omega

/-- Claim C10: `sigma_to_timestemp` reads only table indices `0 .. 999`
(two tables agreeing below index 1000 give the same answer), and for
every input sigma the returned timestep lies in `[0, 999]`: the low
index is clamped to at most 998, the weight to `[0, 1]`, so the rounded
convex combination never leaves the table bounds. -/
theorem timestep_table_window_and_range (ls ls' : ℕ → ℝ) (s : ℝ)
    (h : ∀ i, i < 1000 → ls i = ls' i) :
    sigma_to_timestemp ls s = sigma_to_timestemp ls' s ∧
    0 ≤ sigma_to_timestemp ls s ∧ sigma_to_timestemp ls s ≤ 999 := by
  constructor
  · simp only [sigma_to_timestemp]
    have hd : ∀ j, j ≤ 999 → distsCum ls (Real.log s) j = distsCum ls' (Real.log s) j :=
      fun j hj => distsCum_congr ls ls' _ j fun m hm => h m (by omega)
    have ha : argmaxFirst (distsCum ls (Real.log s)) 999
        = argmaxFirst (distsCum ls' (Real.log s)) 999 := argmaxFirst_congr _ _ 999 hd
    have hlow : ∀ A : ℕ, ls (min A (1000 - 2)) = ls' (min A (1000 - 2)) :=
      fun A => h _ (by have := Nat.min_le_right A (1000 - 2); omega)
    have hhigh : ∀ A : ℕ, ls (min A (1000 - 2) + 1) = ls' (min A (1000 - 2) + 1) :=
      fun A => h _ (by have := Nat.min_le_right A (1000 - 2); omega)
    rw [ha, hlow, hhigh]
  · simp only [sigma_to_timestemp]
    exact round_conv_bounds (min (argmaxFirst (distsCum ls (Real.log s)) 999) (1000 - 2)) _
      (by have := Nat.min_le_right (argmaxFirst (distsCum ls (Real.log s)) 999) (1000 - 2); omega)

/-- Witness for C10 on a concrete table and sigma. -/
theorem timestep_table_window_and_range_witness :
    sigma_to_timestemp (fun _ => (0 : ℝ)) 1 = sigma_to_timestemp (fun _ => (0 : ℝ)) 1 ∧
    0 ≤ sigma_to_timestemp (fun _ => (0 : ℝ)) 1 ∧
    sigma_to_timestemp (fun _ => (0 : ℝ)) 1 ≤ 999 :=
  timestep_table_window_and_range (fun _ => 0) (fun _ => 0) 1 fun _ _ => rfl

/-! ### Strict monotonicity of the log-sigma table -/

/-- The cumulative alpha product is positive while every beta is below
1. -/
theorem acpFun_pos (f : ℕ → ℝ) (N j : ℕ) (hj : j < N)
    (hf : ∀ k, k < N → 0 < f k ∧ f k < 1) : 0 < acpFun f j := by
  apply Finset.prod_pos
  intro k hk
  have hkN : k < N := by have := Finset.mem_range.mp hk; omega
  linarith [(hf k hkN).2]

/-- Recurrence of the cumulative alpha product. -/
theorem acpFun_succ (f : ℕ → ℝ) (j : ℕ) :
    acpFun f (j + 1) = acpFun f j * (1 - f (j + 1)) := by
  rw [acpFun, acpFun, Finset.prod_range_succ]

/-- Each step of the cumulative product strictly shrinks it. -/
theorem acpFun_succ_lt (f : ℕ → ℝ) (N j : ℕ) (hj : j + 1 < N)
    (hf : ∀ k, k < N → 0 < f k ∧ f k < 1) : acpFun f (j + 1) < acpFun f j := by
  rw [acpFun_succ]
  have hpos := acpFun_pos f N j (by omega) hf
  have hb := (hf (j + 1) hj).1
  nlinarith [mul_pos hpos hb]

/-- The cumulative alpha product is strictly decreasing in its index. -/
theorem acpFun_lt (f : ℕ → ℝ) (N : ℕ) (hf : ∀ k, k < N → 0 < f k ∧ f k < 1) :
    ∀ j k, j < k → k < N → acpFun f k < acpFun f j := by
  intro j k
  induction k with
  | zero => intro h _; omega
  | succ k ih =>
    intro hjk hkN
    rcases lt_or_eq_of_le (Nat.lt_succ_iff.mp hjk) with h | h
    · exact lt_trans (acpFun_succ_lt f N k hkN hf) (ih h (by omega))
    · rw [h]; exact acpFun_succ_lt f N k hkN hf

/-- The cumulative alpha product stays below 1. -/
theorem acpFun_lt_one (f : ℕ → ℝ) (N : ℕ) (hf : ∀ k, k < N → 0 < f k ∧ f k < 1)
    (j : ℕ) (hj : j < N) : acpFun f j < 1 := by
  have h0 : acpFun f 0 = 1 - f 0 := by simp [acpFun]
  have hf0 := hf 0 (by omega)
  rcases Nat.eq_zero_or_pos j with h | h
  · subst h; rw [h0]; linarith [hf0.1]
  · have := acpFun_lt f N hf 0 j h hj
    rw [h0] at this
    linarith [hf0.1]

/-- The log-sigma entries determined by a beta sequence confined to
`(0, 1)` are strictly increasing in the index. -/
theorem logSigmaFun_strictMono (f : ℕ → ℝ) (N : ℕ)
    (hf : ∀ k, k < N → 0 < f k ∧ f k < 1) :
    ∀ j k, j < k → k < N → logSigmaFun f j < logSigmaFun f k := by
  intro j k hjk hkN
  have hjN : j < N := by omega
  have haj := acpFun_pos f N j hjN hf
  have hak := acpFun_pos f N k hkN hf
  have haj1 := acpFun_lt_one f N hf j hjN
  have hak1 := acpFun_lt_one f N hf k hkN
  have hlt := acpFun_lt f N hf j k hjk hkN
  have hr : (1 - acpFun f j) / acpFun f j < (1 - acpFun f k) / acpFun f k := by
    rw [div_lt_div_iff haj hak]
    nlinarith
  have hrpos : 0 < (1 - acpFun f j) / acpFun f j := div_pos (by linarith) haj
  have hs : Real.sqrt ((1 - acpFun f j) / acpFun f j) <
      Real.sqrt ((1 - acpFun f k) / acpFun f k) := Real.sqrt_lt_sqrt (le_of_lt hrpos) hr
  exact Real.log_lt_log (Real.sqrt_pos.mpr hrpos) hs

/-- Reading a mapped range list inside its bounds. -/
theorem getD_map_range (f : ℕ → ℝ) (N k : ℕ) (hk : k < N) :
    ((List.range N).map f).getD k 0 = f k := by
  rw [List.getD_eq_getElem?_getD, List.getElem?_map, List.getElem?_range hk]
  rfl

/-- The cumulative alpha product over a mapped range list agrees with
the functional form inside bounds. -/
theorem acpList_map_range (f : ℕ → ℝ) (N j : ℕ) (hj : j < N) :
    acpList ((List.range N).map f) j = acpFun f j := by
  rw [acpList, acpFun]
  refine Finset.prod_congr rfl fun k hk => ?_
  rw [getD_map_range f N k (by have := Finset.mem_range.mp hk; omega)]

/-- Length of the scheduler output when the beta branch produced a
mapped range list. -/
theorem scheduler_length_fun (N : ℕ) (b0 b1 : ℝ) (sched pt : String) (f : ℕ → ℝ)
    (hb : schedulerBetas N b0 b1 sched [] = (List.range N).map f) :
    (LMSDiscreteScheduler N b0 b1 sched pt []).length = N := by
  simp [LMSDiscreteScheduler, hb]

/-- Entries of the scheduler output in functional form. -/
theorem scheduler_getD_fun (N : ℕ) (b0 b1 : ℝ) (sched pt : String) (f : ℕ → ℝ)
    (hb : schedulerBetas N b0 b1 sched [] = (List.range N).map f) (j : ℕ) (hj : j < N) :
    (LMSDiscreteScheduler N b0 b1 sched pt []).getD j 0 = logSigmaFun f j := by
  simp only [LMSDiscreteScheduler, hb, List.length_map, List.length_range]
  rw [getD_map_range _ N j hj, acpList_map_range f N j hj, logSigmaFun]

/-- The "linear" beta branch stays inside `(0, 1)` for valid
hyperparameters. -/
theorem betaLinearFun_bounds (b0 b1 : ℝ) (N : ℕ) (h0 : 0 < b0) (h01 : b0 < b1)
    (h1 : b1 < 1) (hN : 2 ≤ N) :
    ∀ k, k < N → 0 < betaLinearFun b0 b1 N k ∧ betaLinearFun b0 b1 N k < 1 := by
  intro k hk
  have hN1 : (1 : ℝ) ≤ (N : ℝ) - 1 := by
    have : (2 : ℝ) ≤ (N : ℝ) := by exact_mod_cast hN
    linarith
  have hkr : (k : ℝ) ≤ (N : ℝ) - 1 := by
    have : (k : ℝ) + 1 ≤ (N : ℝ) := by exact_mod_cast hk
    linarith
  have hk0 : (0 : ℝ) ≤ (k : ℝ) := Nat.cast_nonneg k
  rw [betaLinearFun]
  constructor
  · have hnn : 0 ≤ (b1 - b0) * (k : ℝ) / ((N : ℝ) - 1) :=
      div_nonneg (mul_nonneg (by linarith) hk0) (by linarith)
    linarith
  · have hle : (b1 - b0) * (k : ℝ) / ((N : ℝ) - 1) ≤ b1 - b0 := by
      rw [div_le_iff (by linarith)]
      nlinarith
    linarith

/-- Closed form of the accumulating linspace. -/
theorem linspaceVal_eq (a h : ℝ) (n : ℕ) : linspaceVal a h n = a + (n : ℝ) * h := by
  induction n with
  | zero => simp [linspaceVal]
  | succ n ih => rw [linspaceVal, ih]; push_cast; ring

/-- The "scaled_linear" beta branch stays inside `(0, 1)` for valid
hyperparameters. -/
theorem betaScaledFun_bounds (b0 b1 : ℝ) (N : ℕ) (h0 : 0 < b0) (h01 : b0 < b1)
    (h1 : b1 < 1) (hN : 2 ≤ N) :
    ∀ k, k < N → 0 < betaScaledFun b0 b1 N k ∧ betaScaledFun b0 b1 N k < 1 := by
  intro k hk
  have hN1 : (1 : ℝ) ≤ (N : ℝ) - 1 := by
    have : (2 : ℝ) ≤ (N : ℝ) := by exact_mod_cast hN
    linarith
  have hkr : (k : ℝ) ≤ (N : ℝ) - 1 := by
    have : (k : ℝ) + 1 ≤ (N : ℝ) := by exact_mod_cast hk
    linarith
  have hs0 : 0 < Real.sqrt b0 := Real.sqrt_pos.mpr h0
  have hs01 : Real.sqrt b0 < Real.sqrt b1 := Real.sqrt_lt_sqrt (le_of_lt h0) h01
  have hs1 : Real.sqrt b1 < 1 := by
    rw [show (1 : ℝ) = Real.sqrt 1 from Real.sqrt_one.symm]
    exact Real.sqrt_lt_sqrt (by linarith) h1
  have hstep : 0 < (Real.sqrt b1 - Real.sqrt b0) / ((N : ℝ) - 1) :=
    div_pos (by linarith) (by linarith)
  simp only [betaScaledFun, linspaceVal_eq]
  set s := Real.sqrt b0 + (k : ℝ) * ((Real.sqrt b1 - Real.sqrt b0) / ((N : ℝ) - 1)) with hsdef
  have hsl : 0 < s := by
    have : 0 ≤ (k : ℝ) * ((Real.sqrt b1 - Real.sqrt b0) / ((N : ℝ) - 1)) :=
      mul_nonneg (Nat.cast_nonneg k) (le_of_lt hstep)
    rw [hsdef]; linarith
  have hsu : s ≤ Real.sqrt b1 := by
    have hm : (k : ℝ) * ((Real.sqrt b1 - Real.sqrt b0) / ((N : ℝ) - 1)) ≤
        ((N : ℝ) - 1) * ((Real.sqrt b1 - Real.sqrt b0) / ((N : ℝ) - 1)) :=
      mul_le_mul_of_nonneg_right hkr (le_of_lt hstep)
    have he : ((N : ℝ) - 1) * ((Real.sqrt b1 - Real.sqrt b0) / ((N : ℝ) - 1)) =
        Real.sqrt b1 - Real.sqrt b0 := by field_simp
    rw [he] at hm
    rw [hsdef]; linarith
  exact ⟨mul_pos hsl hsl, by nlinarith⟩

/-- Core fact behind C5, C2 and C6: for valid hyperparameters and either
recognised schedule name, the scheduler table has length `N` and its
log-sigma entries are strictly increasing. -/
theorem scheduler_strict_core (b0 b1 : ℝ) (N : ℕ) (sched : String)
    (h0 : 0 < b0) (h01 : b0 < b1) (h1 : b1 < 1) (hN : 2 ≤ N)
    (hs : sched = "linear" ∨ sched = "scaled_linear") :
    (LMSDiscreteScheduler N b0 b1 sched "epsilon" []).length = N ∧
    ∀ j k, j < k → k < N →
      (LMSDiscreteScheduler N b0 b1 sched "epsilon" []).getD j 0 <
        (LMSDiscreteScheduler N b0 b1 sched "epsilon" []).getD k 0 := by
  obtain ⟨f, hb, hf⟩ : ∃ f, schedulerBetas N b0 b1 sched [] = (List.range N).map f ∧
      ∀ k, k < N → 0 < f k ∧ f k < 1 := by
    rcases hs with h | h <;> subst h
    · exact ⟨betaLinearFun b0 b1 N, by simp [schedulerBetas],
        betaLinearFun_bounds b0 b1 N h0 h01 h1 hN⟩
    · exact ⟨betaScaledFun b0 b1 N, by simp [schedulerBetas],
        betaScaledFun_bounds b0 b1 N h0 h01 h1 hN⟩
  refine ⟨scheduler_length_fun N b0 b1 sched "epsilon" f hb, fun j k hjk hkN => ?_⟩
  rw [scheduler_getD_fun N b0 b1 sched "epsilon" f hb j (by omega),
    scheduler_getD_fun N b0 b1 sched "epsilon" f hb k hkN]
  exact logSigmaFun_strictMono f N hf j k hjk hkN

/-- Claim C5: for `0 < beta_start < beta_end < 1`, at least 2 training
timesteps and either recognised schedule, the table has length
`num_train_timesteps` and the underlying sigmas (exponentials of the
stored log-sigma entries) are non-negative and strictly increasing. -/
theorem sigma_table_monotone (b0 b1 : ℝ) (N : ℕ) (sched : String)
    (h0 : 0 < b0) (h01 : b0 < b1) (h1 : b1 < 1) (hN : 2 ≤ N)
    (hs : sched = "linear" ∨ sched = "scaled_linear") :
    (LMSDiscreteScheduler N b0 b1 sched "epsilon" []).length = N ∧
    ∀ j k, j < k → k < N →
      0 ≤ Real.exp ((LMSDiscreteScheduler N b0 b1 sched "epsilon" []).getD j 0) ∧
      Real.exp ((LMSDiscreteScheduler N b0 b1 sched "epsilon" []).getD j 0) <
        Real.exp ((LMSDiscreteScheduler N b0 b1 sched "epsilon" []).getD k 0) := by
  obtain ⟨hlen, hmono⟩ := scheduler_strict_core b0 b1 N sched h0 h01 h1 hN hs
  exact ⟨hlen, fun j k hjk hkN =>
    ⟨le_of_lt (Real.exp_pos _), Real.exp_lt_exp.mpr (hmono j k hjk hkN)⟩⟩

/-- Witness for C5 with concrete hyperparameters. -/
theorem sigma_table_monotone_witness :
    (LMSDiscreteScheduler 2 (1 / 4) (1 / 2) "linear" "epsilon" []).length = 2 ∧
    ∀ j k, j < k → k < 2 →
      0 ≤ Real.exp ((LMSDiscreteScheduler 2 (1 / 4) (1 / 2) "linear" "epsilon" []).getD j 0) ∧
      Real.exp ((LMSDiscreteScheduler 2 (1 / 4) (1 / 2) "linear" "epsilon" []).getD j 0) <
        Real.exp ((LMSDiscreteScheduler 2 (1 / 4) (1 / 2) "linear" "epsilon" []).getD k 0) :=
  sigma_table_monotone (1 / 4) (1 / 2) 2 "linear" (by norm_num) (by norm_num) (by norm_num)
    le_rfl (Or.inl rfl)

/-- The default 1000-entry table is strictly increasing on its index
range. -/
theorem defaultLS_strict (j k : ℕ) (hjk : j < k) (hk : k ≤ 999) :
    defaultLS j < defaultLS k := by
  have h := (scheduler_strict_core 0.00085 0.012 1000 "scaled_linear" (by norm_num)
    (by norm_num) (by norm_num) (by norm_num) (Or.inr rfl)).2 j k hjk (by omega)
  simpa [defaultLS, default_log_sigmas] using h

/-! ### Exactness of the timestep mapper at table-aligned sigmas -/

/-- Against a strictly increasing table, the indicator at position `m`
fires exactly when `m ≤ k`, for the target `ls k`. -/
theorem table_indicator_iff (ls : ℕ → ℝ) (hm : ∀ j k, j < k → k ≤ 999 → ls j < ls k)
    (k : ℕ) (hk : k ≤ 999) (m : ℕ) (hmle : m ≤ 999) :
    (0 ≤ ls k - ls m) ↔ m ≤ k := by
  constructor
  · intro h
    by_contra hc
    push_neg at hc
    have := hm k m hc hmle
    linarith
  · intro h
    rcases eq_or_lt_of_le h with he | hl
    · simp [he]
    · have := hm m k hl hk
      linarith

/-- The cumulative indicator against the table value `ls k` counts
`min i k + 1` positions. -/
theorem distsCum_at_table (ls : ℕ → ℝ) (hm : ∀ j k, j < k → k ≤ 999 → ls j < ls k)
    (k : ℕ) (hk : k ≤ 999) :
    ∀ i, i ≤ 999 → distsCum ls (ls k) i = ((min i k : ℕ) : ℝ) + 1 := by
  intro i
  induction i with
  | zero =>
    intro _
    rw [distsCum, if_pos ((table_indicator_iff ls hm k hk 0 (by omega)).mpr (by omega))]
    simp
  | succ i ih =>
    intro hi
    rw [distsCum, ih (by omega)]
    by_cases hik : i + 1 ≤ k
    · rw [if_pos ((table_indicator_iff ls hm k hk (i + 1) hi).mpr hik)]
      have h1 : min i k = i := by omega
      have h2 : min (i + 1) k = i + 1 := by omega
      rw [h1, h2]
      push_cast
      ring
    · rw [if_neg (by rw [table_indicator_iff ls hm k hk (i + 1) hi]; omega)]
      have h1 : min i k = k := by omega
      have h2 : min (i + 1) k = k := by omega
      rw [h1, h2]
      ring

/-- The first argmax of the cumulative indicator against `ls k` is the
crossover index `min n k`. -/
theorem argmaxFirst_distsCum (ls : ℕ → ℝ) (hm : ∀ j k, j < k → k ≤ 999 → ls j < ls k)
    (k : ℕ) (hk : k ≤ 999) :
    ∀ n, n ≤ 999 → argmaxFirst (distsCum ls (ls k)) n = min n k := by
  intro n
  induction n with
  | zero =>
    intro _
    rw [show argmaxFirst (distsCum ls (ls k)) 0 = 0 from rfl]
    omega
  | succ n ih =>
    intro hn
    rw [argmaxFirst, ih (by omega)]
    rw [distsCum_at_table ls hm k hk (min n k) (by omega),
      distsCum_at_table ls hm k hk (n + 1) hn]
    have he : min (min n k) k = min n k := by omega
    rw [he]
    by_cases hc : n < k
    · rw [if_pos]
      · omega
      · have h1 : min n k = n := by omega
        have h2 : min (n + 1) k = n + 1 := by omega
        rw [h1, h2]
        push_cast
        linarith
    · rw [if_neg]
      · omega
      · have h1 : min n k = k := by omega
        have h2 : min (n + 1) k = k := by omega
        rw [h1, h2]
        simp

/-- Exactness of the timestep mapper at table-aligned sigmas, for any
strictly increasing 1000-entry table. -/
theorem stt_exact (ls : ℕ → ℝ) (hm : ∀ j k, j < k → k ≤ 999 → ls j < ls k)
    (k : ℕ) (hk : k ≤ 999) :
    sigma_to_timestemp ls (Real.exp (ls k)) = (k : ℤ) := by
  simp only [sigma_to_timestemp, Real.log_exp]
  rw [argmaxFirst_distsCum ls hm k hk 999 le_rfl]
  have hmin : min (min 999 k) (1000 - 2) = min k 998 := by omega
  rw [hmin]
  by_cases hc : k ≤ 998
  · have h1 : min k 998 = k := by omega
    rw [h1, sub_self, zero_div]
    rw [show max (0 : ℝ) (min 1 0) = 0 from by norm_num]
    rw [sub_zero, one_mul, zero_mul, add_zero, round_natCast]
  · have hk9 : k = 999 := by omega
    subst hk9
    have h1 : min 999 998 = 998 := by omega
    rw [h1, show (998 : ℕ) + 1 = 999 from rfl]
    have hlt : ls 998 < ls 999 := hm 998 999 (by omega) le_rfl
    have hne : ls 998 - ls 999 ≠ 0 := sub_ne_zero_of_ne (ne_of_lt hlt)
    rw [div_self hne]
    rw [show max (0 : ℝ) (min 1 1) = 1 from by norm_num]
    rw [sub_self, zero_mul, one_mul, zero_add, round_natCast]

/-- Claim C6: for every index `k` of the default 1000-entry log-sigma
table, the timestep mapper applied to the sigma `exp (table k)` returns
exactly `k` (so in particular it is total and correct at both table
boundaries `k = 0` and `k = 999`). -/
theorem timestep_exact_at_table (k : ℕ) (hk : k < 1000) :
    sigma_to_timestemp defaultLS (Real.exp (defaultLS k)) = (k : ℤ) :=
  stt_exact defaultLS (fun j m hjm hmle => defaultLS_strict j m hjm hmle) k (by omega)

/-- Witness for C6 at the lower table boundary. -/
theorem timestep_exact_at_table_witness :
    (0 : ℕ) < 1000 ∧ sigma_to_timestemp defaultLS (Real.exp (defaultLS 0)) = ((0 : ℕ) : ℤ) :=
  ⟨by norm_num, timestep_exact_at_table 0 (by norm_num)⟩

/-! ### The run schedule -/

/-- Uniform closed form of the floor/ceil interpolation for `t ≥ 0`:
the ceil entry only matters through the fractional weight, so the value
is always `ls (floor t) + fract * (ls (floor t + 1) - ls (floor t))`. -/
theorem interpLS_eq (ls : ℕ → ℝ) (t : ℝ) (h0 : 0 ≤ t) :
    interpLS ls t =
      ls ⌊t⌋.toNat + (t - (⌊t⌋ : ℝ)) * (ls (⌊t⌋.toNat + 1) - ls ⌊t⌋.toNat) := by
  rcases eq_or_lt_of_le (Int.floor_le t) with he | hlt
  · rw [interpLS, ← he, Int.floor_intCast, Int.ceil_intCast]
    ring
  · have hceil : ⌈t⌉ = ⌊t⌋ + 1 :=
      le_antisymm (Int.ceil_le_floor_add_one t)
        (by rw [Int.add_one_le_iff]; exact Int.lt_ceil.mpr hlt)
    have hfl : (0 : ℤ) ≤ ⌊t⌋ := Int.le_floor.mpr (by exact_mod_cast h0)
    have htn : ⌈t⌉.toNat = ⌊t⌋.toNat + 1 := by omega
    rw [interpLS, htn]
    ring

/-- Piecewise-linear interpolation of a table strictly increasing on
`[0, 999]` is strictly monotone there. -/
theorem interpLS_strictMono (ls : ℕ → ℝ) (hm : ∀ j k, j < k → k ≤ 999 → ls j < ls k)
    (s t : ℝ) (hs0 : 0 ≤ s) (hst : s < t) (ht : t ≤ 999) :
    interpLS ls s < interpLS ls t := by
  have ht0 : 0 ≤ t := le_trans hs0 (le_of_lt hst)
  have hmle : ∀ j k, j ≤ k → k ≤ 999 → ls j ≤ ls k := by
    intro j k hjk hk
    rcases eq_or_lt_of_le hjk with he | hl
    · rw [he]
    · exact le_of_lt (hm j k hl hk)
  have hsfl0 : (0 : ℤ) ≤ ⌊s⌋ := Int.le_floor.mpr (by exact_mod_cast hs0)
  have htfl0 : (0 : ℤ) ≤ ⌊t⌋ := Int.le_floor.mpr (by exact_mod_cast ht0)
  rw [interpLS_eq ls s hs0, interpLS_eq ls t ht0]
  set m := ⌊s⌋.toNat with hmdef
  set n := ⌊t⌋.toNat with hndef
  have hmcast : (m : ℤ) = ⌊s⌋ := Int.toNat_of_nonneg hsfl0
  have hncast : (n : ℤ) = ⌊t⌋ := Int.toNat_of_nonneg htfl0
  have hfs : ((⌊s⌋ : ℤ) : ℝ) = (m : ℝ) := by exact_mod_cast hmcast.symm
  have hft : ((⌊t⌋ : ℤ) : ℝ) = (n : ℝ) := by exact_mod_cast hncast.symm
  rw [hfs, hft]
  have hmr : (m : ℝ) ≤ s := by
    have h := Int.floor_le s
    rw [hfs] at h
    exact h
  have hsr : s < (m : ℝ) + 1 := by
    have h := Int.lt_floor_add_one s
    rw [hfs] at h
    exact h
  have hnr : (n : ℝ) ≤ t := by
    have h := Int.floor_le t
    rw [hft] at h
    exact h
  have hmn : m ≤ n := by
    have h := Int.floor_le_floor (le_of_lt hst)
    omega
  have hm999 : m < 999 := by
    have hr : (m : ℝ) < 999 := lt_of_le_of_lt hmr (lt_of_lt_of_le hst ht)
    exact_mod_cast hr
  have hn999 : n ≤ 999 := by
    have hr : (n : ℝ) ≤ 999 := le_trans hnr ht
    exact_mod_cast hr
  rcases eq_or_lt_of_le hmn with he | hmlt
  · rw [← he]
    have hD : 0 < ls (m + 1) - ls m := sub_pos.mpr (hm m (m + 1) (by omega) (by omega))
    have hw : s - (m : ℝ) < t - (m : ℝ) := by linarith
    have := mul_lt_mul_of_pos_right hw hD
    linarith
  · have hDm : 0 < ls (m + 1) - ls m := sub_pos.mpr (hm m (m + 1) (by omega) (by omega))
    have hws1 : s - (m : ℝ) < 1 := by linarith
    have hA : ls m + (s - (m : ℝ)) * (ls (m + 1) - ls m) < ls (m + 1) := by
      nlinarith [mul_pos (show (0 : ℝ) < 1 - (s - (m : ℝ)) by linarith) hDm]
    have hmid : ls (m + 1) ≤ ls n := hmle (m + 1) n (by omega) hn999
    have hB : ls n ≤ ls n + (t - (n : ℝ)) * (ls (n + 1) - ls n) := by
      by_cases hn8 : n ≤ 998
      · have hDn : 0 ≤ ls (n + 1) - ls n :=
          le_of_lt (sub_pos.mpr (hm n (n + 1) (by omega) (by omega)))
        have hwt0 : 0 ≤ t - (n : ℝ) := by linarith
        nlinarith
      · have hn9 : n = 999 := by omega
        have ht9 : t = 999 := by
          rw [hn9] at hnr
          push_cast at hnr
          linarith
        have hwt : t - (n : ℝ) = 0 := by
          rw [ht9, hn9]
          norm_num
        rw [hwt]
        simp
    linarith

/-- The schedule list has `steps + 1` entries. -/
theorem runScheduleList_length (ls : ℕ → ℝ) (steps : ℕ) (d : ℝ) :
    (runScheduleList ls steps d).length = steps + 1 := by
  simp [runScheduleList]

/-- Non-terminal entries of the schedule list. -/
theorem runScheduleList_getD_lt (ls : ℕ → ℝ) (steps : ℕ) (d : ℝ) (i : ℕ) (hi : i < steps) :
    (runScheduleList ls steps d).getD i 0 = Real.exp (interpLS ls (tRun d i)) := by
  rw [runScheduleList, List.getD_append _ _ _ _ (by simp [hi]),
    getD_map_range _ steps i hi]

/-- The terminal entry of the schedule list is the appended 0. -/
theorem runScheduleList_getD_last (ls : ℕ → ℝ) (steps : ℕ) (d : ℝ) :
    (runScheduleList ls steps d).getD steps 0 = 0 := by
  rw [runScheduleList, List.getD_append_right _ _ _ _ (by simp)]
  simp

/-- For at least 2 steps the interpolation step is strictly negative. -/
theorem deltaVal_neg (steps : ℕ) (h : 2 ≤ steps) : deltaVal steps < 0 := by
  rw [deltaVal]
  apply div_neg_of_neg_of_pos
  · norm_num
  · have h2 : (2 : ℝ) ≤ (steps : ℝ) := by exact_mod_cast h
    linarith

/-- For at least 2 steps the visited fractional timesteps stay inside
`[0, 999]`. -/
theorem tRun_mem (steps i : ℕ) (h2 : 2 ≤ steps) (hi : i < steps) :
    0 ≤ tRun (deltaVal steps) i ∧ tRun (deltaVal steps) i ≤ 999 := by
  have h2r : (2 : ℝ) ≤ (steps : ℝ) := by exact_mod_cast h2
  have hpos : (0 : ℝ) < (steps : ℝ) - 1 := by linarith
  have hip : (i : ℝ) ≤ (steps : ℝ) - 1 := by
    have : (i : ℝ) + 1 ≤ (steps : ℝ) := by exact_mod_cast hi
    linarith
  have hi0 : (0 : ℝ) ≤ (i : ℝ) := Nat.cast_nonneg i
  rw [tRun, deltaVal]
  constructor
  · have hb : (i : ℝ) * (999 / ((steps : ℝ) - 1)) ≤
        ((steps : ℝ) - 1) * (999 / ((steps : ℝ) - 1)) :=
      mul_le_mul_of_nonneg_right hip (by positivity)
    have he2 : ((steps : ℝ) - 1) * (999 / ((steps : ℝ) - 1)) = 999 := by field_simp
    have key : (i : ℝ) * (-999 / ((steps : ℝ) - 1)) =
        -((i : ℝ) * (999 / ((steps : ℝ) - 1))) := by ring
    rw [key]
    rw [he2] at hb
    linarith
  · have hneg : (i : ℝ) * (-999 / ((steps : ℝ) - 1)) ≤ 0 :=
      mul_nonpos_of_nonneg_of_nonpos hi0
        (le_of_lt (div_neg_of_neg_of_pos (by norm_num) hpos))
    linarith

/-- The visited fractional timesteps strictly decrease with the run
index once there are at least 2 steps. -/
theorem tRun_strict (steps i j : ℕ) (h2 : 2 ≤ steps) (hij : i < j) :
    tRun (deltaVal steps) j < tRun (deltaVal steps) i := by
  rw [tRun, tRun]
  have hd := deltaVal_neg steps h2
  have hc : (i : ℝ) < (j : ℝ) := by exact_mod_cast hij
  have := mul_lt_mul_of_neg_right hc hd
  linarith

/-- Claim C2 (code bug evidence): at `steps = 1` the schedule
construction divides by zero at line 273 and is undefined, contradicting
the claim's "no division by zero occurs (delta is defined as 0 in that
case)" and its well-defined positive single sigma; for every
`steps ≥ 2` the remainder of the claim holds of the code: the schedule
exists, has length `steps + 1`, positive non-terminal entries, is
strictly decreasing, and its last element is exactly 0. -/
theorem run_schedule_division_by_zero (steps : ℕ) (h2 : 2 ≤ steps) :
    runSchedule defaultLS 1 = none ∧
    runSchedule defaultLS steps = some (runScheduleList defaultLS steps (deltaVal steps)) ∧
    (runScheduleList defaultLS steps (deltaVal steps)).length = steps + 1 ∧
    (runScheduleList defaultLS steps (deltaVal steps)).getD steps 0 = 0 ∧
    (∀ i, i < steps → 0 < (runScheduleList defaultLS steps (deltaVal steps)).getD i 0) ∧
    (∀ i j, i < j → j ≤ steps →
      (runScheduleList defaultLS steps (deltaVal steps)).getD j 0 <
        (runScheduleList defaultLS steps (deltaVal steps)).getD i 0) := by
  refine ⟨by simp [runSchedule, deltaRun], ?_,
    runScheduleList_length defaultLS steps (deltaVal steps),
    runScheduleList_getD_last defaultLS steps (deltaVal steps), ?_, ?_⟩
  · simp [runSchedule, deltaRun, show steps ≠ 1 by omega]
  · intro i hi
    rw [runScheduleList_getD_lt defaultLS steps (deltaVal steps) i hi]
    exact Real.exp_pos _
  · intro i j hij hj
    rcases eq_or_lt_of_le hj with he | hjlt
    · rw [he, runScheduleList_getD_last defaultLS steps (deltaVal steps),
        runScheduleList_getD_lt defaultLS steps (deltaVal steps) i (by omega)]
      exact Real.exp_pos _
    · rw [runScheduleList_getD_lt defaultLS steps (deltaVal steps) j hjlt,
        runScheduleList_getD_lt defaultLS steps (deltaVal steps) i (by omega)]
      apply Real.exp_lt_exp.mpr
      apply interpLS_strictMono defaultLS (fun a b hab hble => defaultLS_strict a b hab hble)
      · exact (tRun_mem steps j h2 hjlt).1
      · exact tRun_strict steps i j h2 hij
      · exact (tRun_mem steps i h2 (by omega)).2

/-- Witness for the C2 evidence theorem at `steps = 2`. -/
theorem run_schedule_division_by_zero_witness :
    2 ≤ 2 ∧
    (runSchedule defaultLS 1 = none ∧
    runSchedule defaultLS 2 = some (runScheduleList defaultLS 2 (deltaVal 2)) ∧
    (runScheduleList defaultLS 2 (deltaVal 2)).length = 2 + 1 ∧
    (runScheduleList defaultLS 2 (deltaVal 2)).getD 2 0 = 0 ∧
    (∀ i, i < 2 → 0 < (runScheduleList defaultLS 2 (deltaVal 2)).getD i 0) ∧
    (∀ i j, i < j → j ≤ 2 →
      (runScheduleList defaultLS 2 (deltaVal 2)).getD j 0 <
        (runScheduleList defaultLS 2 (deltaVal 2)).getD i 0)) :=
  ⟨le_rfl, run_schedule_division_by_zero 2 le_rfl⟩

end
